import Mathlib

/-!
Shallow embedding of the partition/collate utilities of the q2-types plugin
(`q2_types/per_sample_sequences/_partitioners.py`,
`q2_types/per_sample_sequences/_methods.py` and
`q2_types/genome_data/_methods.py`), together with proofs about the
data-movement contract those functions implement.

Datasets are modelled by the information the functions actually touch: a flat
dataset is the list of `(sample-id, file-content)` pairs returned by
`sample_dict()`, a demultiplexed dataset is its manifest rows plus its
`metadata.yml` text, and a MAG dataset is its manifest lines plus its
per-sample subdirectories.  Fallible code returns `Except String`; every
`warnings.warn` call is surfaced as an element of a warning list.
-/

namespace Q2Types

/-- Python's `enumerate(xs, i)`: pair every element with its index, counting
from `i`. -/
def enum1 {α : Type _} : Nat → List α → List (Nat × α)
  | _, [] => []
  | i, a :: as => (i, a) :: enum1 (i + 1) as

/-- Section sizes used by `numpy.array_split`: `N % k` sections of size
`N / k + 1` followed by `k - N % k` sections of size `N / k`. -/
def splitSizes (N k : Nat) : List Nat :=
  List.replicate (N % k) (N / k + 1) ++ List.replicate (k - N % k) (N / k)

/-- Contiguous split performed by `numpy.array_split` for a positive section
count. -/
def array_split {α : Type _} (l : List α) (k : Nat) : List (List α) :=
  (splitSizes l.length k).splitLengths l

/-- Message of the `ValueError` raised by `numpy.array_split` when the section
count is not positive. -/
def npSplitError : String := "ValueError: number sections must be larger than 0."

/-- Embedding of `numpy.array_split`, including its rejection of a
non-positive section count. -/
def np_array_split {α : Type _} (l : List α) (sections : Int) :
    Except String (List (List α)) :=
  if sections ≤ 0 then .error npSplitError
  else .ok (array_split l sections.toNat)

theorem enum1_map_snd {α : Type _} (i : Nat) (l : List α) :
    (enum1 i l).map Prod.snd = l := by
  induction l generalizing i with
  | nil => rfl
  | cons a as ih => simp [enum1, ih]

theorem enum1_length {α : Type _} (i : Nat) (l : List α) :
    (enum1 i l).length = l.length := by
  induction l generalizing i with
  | nil => rfl
  | cons a as ih => simp [enum1, ih]

theorem enum1_map_snd_fun {α β : Type _} (f : α → β) (i : Nat) (l : List α) :
    (enum1 i l).map (fun ic => f ic.2) = l.map f := by
  induction l generalizing i with
  | nil => rfl
  | cons a as ih => simp [enum1, ih]

theorem enum1_map_fst {α : Type _} (i : Nat) (l : List α) :
    (enum1 i l).map Prod.fst = (List.range l.length).map (fun j => i + j) := by
  induction l generalizing i with
  | nil => rfl
  | cons a as ih =>
    simp only [enum1, List.map_cons, ih, List.length_cons,
      List.range_succ_eq_map, List.map_map]
    refine congrArg (List.cons _) (List.map_congr_left fun j _ => ?_)
    simp [Function.comp]
    omega

theorem splitSizes_length (N k : Nat) (hk : 0 < k) : (splitSizes N k).length = k := by
  have hmod := Nat.mod_lt N hk
  simp [splitSizes]
  omega

theorem splitSizes_sum (N k : Nat) (hk : 0 < k) : (splitSizes N k).sum = N := by
  have hmod := Nat.mod_lt N hk
  have hdiv := Nat.div_add_mod N k
  have e1 : N % k * (N / k + 1) = N % k * (N / k) + N % k := by ring
  have e2 : (k - N % k) * (N / k) = k * (N / k) - N % k * (N / k) :=
    Nat.sub_mul k (N % k) (N / k)
  have e3 : N % k * (N / k) ≤ k * (N / k) :=
    Nat.mul_le_mul_right (N / k) (le_of_lt hmod)
  simp [splitSizes, List.sum_replicate, smul_eq_mul]
  omega

theorem splitSizes_self (N : Nat) (hN : 0 < N) :
    splitSizes N N = List.replicate N 1 := by
  simp [splitSizes, Nat.mod_self, Nat.div_self hN]

theorem splitLengths_replicate_one {α : Type _} (l : List α) :
    (List.replicate l.length 1).splitLengths l = l.map (fun a => [a]) := by
  induction l with
  | nil => rfl
  | cons a as ih => simpa [List.replicate_succ] using ih

theorem array_split_flatten {α : Type _} (l : List α) (k : Nat) (hk : 0 < k) :
    (array_split l k).flatten = l :=
  List.flatten_splitLengths l (splitSizes l.length k)
    (le_of_eq (splitSizes_sum l.length k hk).symm)

theorem array_split_length {α : Type _} (l : List α) (k : Nat) (hk : 0 < k) :
    (array_split l k).length = k := by
  rw [array_split, List.length_splitLengths, splitSizes_length l.length k hk]

theorem array_split_map_length {α : Type _} (l : List α) (k : Nat) (hk : 0 < k) :
    (array_split l k).map List.length = splitSizes l.length k :=
  List.map_splitLengths_length l (splitSizes l.length k)
    (le_of_eq (splitSizes_sum l.length k hk))

theorem array_split_self {α : Type _} (l : List α) (hl : 0 < l.length) :
    array_split l l.length = l.map (fun a => [a]) := by
  rw [array_split, splitSizes_self l.length hl, splitLengths_replicate_one]

theorem splitSizes_getElem (N k i : Nat) (hk : 0 < k) (hi : i < (splitSizes N k).length) :
    (splitSizes N k)[i] = if i < N % k then N / k + 1 else N / k := by
  have hmod := Nat.mod_lt N hk
  unfold splitSizes at hi ⊢
  by_cases h : i < N % k
  · rw [List.getElem_append_left (by simpa using h)]
    simp [h]
  · rw [List.getElem_append_right (by simpa using h)]
    simp at hi
    rw [List.getElem_replicate]
    simp [h]

theorem ceil_div_eq_succ (N k : Nat) (hk : 0 < k) (hr : 0 < N % k) :
    (N + k - 1) / k = N / k + 1 := by
  have hdiv := Nat.div_add_mod N k
  have hmod := Nat.mod_lt N hk
  have hx : (N / k + 1) * k = k * (N / k) + k := by ring
  have hy : N + k - 1 = (N % k - 1) + (N / k + 1) * k := by omega
  rw [hy, Nat.add_mul_div_right _ _ hk, Nat.div_eq_of_lt (by omega)]
  omega

/-- Key of one entry of the dictionary returned by the partitioners: either a
1-based chunk index or a sample identifier. -/
inductive PartitionKey
  | ix : Nat → PartitionKey
  | sid : String → PartitionKey
deriving DecidableEq, Repr

/-- Warning emitted when the requested partition count exceeds the sample
count, built exactly like the f-string in the source. -/
def partitionWarning (numPartitions : Int) (numSamples : Nat) : String :=
  "You have requested a number of partitions '" ++ toString numPartitions ++
  "' that is greater than your number of samples '" ++ toString numSamples ++
  ".' Your data will be partitioned by sample into '" ++ toString numSamples ++
  "' partitions."

/-- One row of the manifest of a demultiplexed dataset: sample identifier plus
the names of its forward and reverse fastq files. -/
structure DemuxSample where
  sampleId : String
  forward : String
  reverse : String
deriving DecidableEq, Repr

/-- A demultiplexed per-sample-sequence dataset as seen by
`_partition_helper`: its manifest rows in manifest order and the text of its
`metadata.yml` file. -/
structure Demux where
  samples : List DemuxSample
  metadataYaml : String
deriving DecidableEq, Repr

/-- Content written by `_write_metadata_yaml`: `yaml.dump({'phred-offset': 33})`. -/
def _write_metadata_yaml : String := "phred-offset: 33\n"

/-- Header written by `_partition_write_manifest`: the fixed column header,
followed in the single-end case by the fixed comment lines. -/
def manifestHeader (paired : Bool) : String :=
  "sample-id,filename,direction\n" ++
  (if paired then "" else
    "# direction is not meaningful in this file as these\n" ++
    "# data may be derived from forward, reverse, or \n" ++
    "# joined reads\n")

/-- Manifest lines contributed by one sample, as produced by
`_partition_duplicate` for the forward and, when paired, reverse file. -/
def sampleManifestLines (paired : Bool) (s : DemuxSample) : String :=
  s.sampleId ++ "," ++ s.forward ++ ",forward\n" ++
  (if paired then s.sampleId ++ "," ++ s.reverse ++ ",reverse\n" else "")

/-- One partition produced by `_partition_helper`: the fastq files duplicated
into its directory, the sample ids listed by its manifest, the manifest text
and the text of its `metadata.yml`. -/
structure PartResult where
  files : List String
  sampleIds : List String
  manifest : String
  metadata : String
deriving DecidableEq, Repr

/-- Materialization of one chunk of manifest rows as a partition dataset,
mirroring the per-chunk body of the loop in `_partition_helper`. -/
def buildPart (paired : Bool) (chunk : List DemuxSample) : PartResult :=
  { files := (chunk.map (fun s => s.forward :: (if paired then [s.reverse] else []))).flatten
    sampleIds := chunk.map DemuxSample.sampleId
    manifest := manifestHeader paired ++ String.join (chunk.map (sampleManifestLines paired))
    metadata := _write_metadata_yaml }

/-- Clamping preamble of `_partition_helper`: an absent count defaults to the
sample count, a count above the sample count is clamped with a warning, any
other count is passed through unchanged. -/
def clampPartitions (numSamples : Nat) (numPartitions : Option Int) :
    Int × List String :=
  match numPartitions with
  | none => ((numSamples : Int), [])
  | some k =>
      if k > (numSamples : Int) then
        ((numSamples : Int), [partitionWarning k numSamples])
      else (k, [])

/-- Embedding of `_partition_helper` from
`q2_types/per_sample_sequences/_partitioners.py`.  The first component
collects the warnings emitted; the second is the returned dictionary as an
association list in insertion order, or the uncaught exception. -/
def _partition_helper (demux : Demux) (numPartitions : Option Int) (paired : Bool) :
    List String × Except String (List (PartitionKey × PartResult)) :=
  let numSamples := demux.samples.length
  let npw : Int × List String := clampPartitions numSamples numPartitions
  match np_array_split demux.samples npw.1 with
  | .error e => (npw.2, .error e)
  | .ok chunks =>
      (npw.2, .ok ((enum1 1 chunks).map (fun ic =>
        (if npw.1 = (numSamples : Int) then
           PartitionKey.sid ((ic.2.map DemuxSample.sampleId).getLastD "")
         else PartitionKey.ix ic.1,
         buildPart paired ic.2))))

/-- Modelled from the spec: `_validate_num_partitions` lives in
`q2_types/_util.py`, which is absent from the source tree (only its tests and
callers are present).  Per the spec, an absent count defaults to the sample
count, a count greater than the sample count emits the clamping warning and is
clamped, and a count less than 1 fails with ConfigurationError. -/
def _validate_num_partitions (numSamples : Nat) (numPartitions : Option Int) :
    Except String (Nat × List String) :=
  match numPartitions with
  | none => .ok (numSamples, [])
  | some k =>
      if k < 1 then .error "ConfigurationError: the number of partitions must be at least 1."
      else if k > (numSamples : Int) then
        .ok (numSamples, [partitionWarning k numSamples])
      else .ok (k.toNat, [])

/-- Embedding of `partition_contigs` from
`q2_types/per_sample_sequences/_methods.py`.  A contig dataset is the list of
`(sample-id, file-content)` pairs of its `sample_dict()`, in iteration order;
file names are preserved by `duplicate`, so each partition is the chunk of
pairs copied into it. -/
def partition_contigs (contigs : List (String × String)) (numPartitions : Option Int) :
    Except String (List (PartitionKey × List (String × String)) × List String) :=
  match _validate_num_partitions contigs.length numPartitions with
  | .error e => .error e
  | .ok npw =>
      match np_array_split contigs (npw.1 : Int) with
      | .error e => .error e
      | .ok chunks =>
          .ok ((enum1 1 chunks).map (fun ic =>
            (if npw.1 = contigs.length then
               PartitionKey.sid ((ic.2.map Prod.fst).getLastD "")
             else PartitionKey.ix ic.1,
             ic.2)), npw.2)

/-- Message of the `FileExistsError` raised by `qiime2.util.duplicate` when the
destination file already exists. -/
def fileExistsError : String := "FileExistsError: destination already exists."

/-- Sequential duplication of files into one output directory:
each file is refused when a file of the same name is already present. -/
def copyInto (acc : List (String × String)) :
    List (String × String) → Except String (List (String × String))
  | [] => .ok acc
  | f :: fs =>
      if (acc.map Prod.fst).contains f.1 then .error fileExistsError
      else copyInto (acc ++ [f]) fs

/-- Embedding of `collate_contigs` from
`q2_types/per_sample_sequences/_methods.py`: every file of every input
partition is duplicated into one fresh output directory. -/
def collate_contigs (contigs : List (List (String × String))) :
    Except String (List (String × String)) :=
  copyInto [] contigs.flatten

/-- A `MultiMAGSequencesDirFmt` dataset as seen by `collate_sample_data_mags`:
the lines of its `MANIFEST` file and its per-sample subdirectories, each a
list of `(file name, file content)` pairs. -/
structure MagDataset where
  manifest : List String
  samples : List (String × List (String × String))
deriving DecidableEq, Repr

/-- Output directory built by `collate_sample_data_mags`: the accumulated
`(sample, file name, file content)` triples, the lines of the output
`MANIFEST` (absent until a first manifest has been copied), and the warnings
emitted (the source function never emits any). -/
structure MagCollated where
  files : List (String × String × String)
  manifest : Option (List String)
  warnings : List String
deriving DecidableEq, Repr

/-- Message of the `StopIteration` escaping `next(src)` when a subsequent
manifest file is empty. -/
def stopIterationError : String := "StopIteration"

/-- Duplication of the files of one sample subdirectory into the output,
mirroring the inner loop over `sample.iterdir()`; `duplicate` refuses an
already-existing destination. -/
def addMagFiles (acc : List (String × String × String)) (sname : String) :
    List (String × String) → Except String (List (String × String × String))
  | [] => .ok acc
  | f :: fs =>
      if acc.any (fun t => t.1 = sname && t.2.1 = f.1) then .error fileExistsError
      else addMagFiles (acc ++ [(sname, f.1, f.2)]) sname fs

/-- Duplication of all sample subdirectories of one input partition
(`os.makedirs(..., exist_ok=True)` merges silently into an existing
directory). -/
def addSamples (acc : List (String × String × String)) :
    List (String × List (String × String)) →
      Except String (List (String × String × String))
  | [] => .ok acc
  | (sname, mags) :: rest =>
      match addMagFiles acc sname mags with
      | .error e => .error e
      | .ok acc2 => addSamples acc2 rest

/-- Manifest handling of `collate_sample_data_mags`: the first manifest seen
is copied whole; each later one has exactly its first line skipped by
`next(src)`, which raises on an empty file. -/
def appendManifest (cur : Option (List String)) (m : List String) :
    Except String (Option (List String)) :=
  match cur with
  | none => .ok (some m)
  | some existing =>
      match m with
      | [] => .error stopIterationError
      | _ :: rest => .ok (some (existing ++ rest))

/-- Loop of `collate_sample_data_mags` over the input partitions, in input
order. -/
def collateMagsGo (acc : MagCollated) : List MagDataset → Except String MagCollated
  | [] => .ok acc
  | ds :: rest =>
      match addSamples acc.files ds.samples with
      | .error e => .error e
      | .ok files2 =>
          match appendManifest acc.manifest ds.manifest with
          | .error e => .error e
          | .ok man2 => collateMagsGo ⟨files2, man2, acc.warnings⟩ rest

/-- Embedding of `collate_sample_data_mags` from
`q2_types/per_sample_sequences/_methods.py`. -/
def collate_sample_data_mags (inputs : List MagDataset) : Except String MagCollated :=
  collateMagsGo ⟨[], none, []⟩ inputs

/-- Message template of `collate_genomes` for duplicate genome identifiers. -/
def dupMsg (ids : List String) : String :=
  "Duplicate sequence files were found for the following IDs: " ++
  String.intercalate ", " ids ++ "."

/-- Tail appended to the duplicate-id message when `collate_genomes` warns. -/
def dupWarnTail : String :=
  " The latest occurrence will overwrite all previous occurrences for each" ++
  " corresponding ID."

/-- Loop state of `collate_genomes`: the set `ids` of identifiers written so
far, the set `duplicate_ids` (kept in insertion order; the final warning
sorts it), and the `(file name, content)` pairs written to the output
directory. -/
structure GState where
  ids : List String
  dups : List String
  out : List (String × String)
deriving DecidableEq, Repr

/-- Body of the per-file loop of `collate_genomes`: a fresh identifier is
written out, a repeated one is recorded as duplicate and either skipped or,
under the error policy, raised at once. -/
def stepFile (err : Bool) (st : GState) (f : String × String) : Except String GState :=
  if st.ids.contains f.1 then
    let dups2 := if st.dups.contains f.1 then st.dups else st.dups ++ [f.1]
    if err then .error (dupMsg dups2)
    else .ok { st with dups := dups2 }
  else .ok { ids := st.ids ++ [f.1], dups := st.dups, out := st.out ++ [f] }

/-- Inner loop of `collate_genomes` over the files of one input. -/
def processFiles (err : Bool) : GState → List (String × String) → Except String GState
  | st, [] => .ok st
  | st, f :: fs =>
      match stepFile err st f with
      | .error e => .error e
      | .ok st2 => processFiles err st2 fs

/-- Outer loop of `collate_genomes` over the inputs. -/
def processGenomes (err : Bool) : GState → List (List (String × String)) →
    Except String GState
  | st, [] => .ok st
  | st, g :: gs =>
      match processFiles err st g with
      | .error e => .error e
      | .ok st2 => processGenomes err st2 gs

/-- Embedding of `collate_genomes` from `q2_types/genome_data/_methods.py`
(directory-format branch; the fasta branch runs the identical duplicate
logic).  Each input is a list of `(file name, content)` pairs; the result is
the output directory together with the warnings emitted. -/
def collate_genomes (genomes : List (List (String × String)))
    (on_duplicates : String) : Except String (List (String × String) × List String) :=
  match processGenomes (on_duplicates == "error") ⟨[], [], []⟩ genomes with
  | .error e => .error e
  | .ok st =>
      .ok (st.out,
        if st.dups.isEmpty then []
        else [dupMsg (st.dups.mergeSort (fun a b => decide (a ≤ b))) ++ dupWarnTail])

theorem clampPartitions_le (numSamples : Nat) (k : Int)
    (h : ¬ k > (numSamples : Int)) :
    clampPartitions numSamples (some k) = (k, []) := by
  simp [clampPartitions, h]

theorem clampPartitions_gt (numSamples : Nat) (k : Int)
    (h : k > (numSamples : Int)) :
    clampPartitions numSamples (some k) =
      ((numSamples : Int), [partitionWarning k numSamples]) := by
  simp [clampPartitions, h]

/-- Keyed partition list built by the loop of `_partition_helper` from the
chunks of `np.array_split`, with `i` the 1-based index of the first chunk. -/
def mkPartsFrom (paired : Bool) (numSamples k i : Nat)
    (chunks : List (List DemuxSample)) : List (PartitionKey × PartResult) :=
  (enum1 i chunks).map (fun ic =>
    (if k = numSamples then
       PartitionKey.sid ((ic.2.map DemuxSample.sampleId).getLastD "")
     else PartitionKey.ix ic.1,
     buildPart paired ic.2))

theorem mkPartsFrom_nil (paired : Bool) (ns k i : Nat) :
    mkPartsFrom paired ns k i [] = [] := rfl

theorem mkPartsFrom_cons (paired : Bool) (ns k i : Nat)
    (c : List DemuxSample) (cs : List (List DemuxSample)) :
    mkPartsFrom paired ns k i (c :: cs) =
      (if k = ns then
         PartitionKey.sid ((c.map DemuxSample.sampleId).getLastD "")
       else PartitionKey.ix i,
       buildPart paired c) :: mkPartsFrom paired ns k (i + 1) cs := rfl

theorem mkPartsFrom_length (paired : Bool) (ns k i : Nat)
    (chunks : List (List DemuxSample)) :
    (mkPartsFrom paired ns k i chunks).length = chunks.length := by
  induction chunks generalizing i with
  | nil => rfl
  | cons c cs ih => simp [mkPartsFrom_cons, ih]

theorem mkPartsFrom_map_sampleIds (paired : Bool) (ns k i : Nat)
    (chunks : List (List DemuxSample)) :
    (mkPartsFrom paired ns k i chunks).map (fun p => p.2.sampleIds) =
      chunks.map (fun c => c.map DemuxSample.sampleId) := by
  induction chunks generalizing i with
  | nil => rfl
  | cons c cs ih => simp [mkPartsFrom_cons, ih, buildPart]

theorem mkPartsFrom_map_sizes (paired : Bool) (ns k i : Nat)
    (chunks : List (List DemuxSample)) :
    (mkPartsFrom paired ns k i chunks).map (fun p => p.2.sampleIds.length) =
      chunks.map List.length := by
  induction chunks generalizing i with
  | nil => rfl
  | cons c cs ih => simp [mkPartsFrom_cons, ih, buildPart]

theorem mkPartsFrom_map_fst_eq (paired : Bool) (ns i : Nat)
    (chunks : List (List DemuxSample)) :
    (mkPartsFrom paired ns ns i chunks).map Prod.fst =
      chunks.map (fun c =>
        PartitionKey.sid ((c.map DemuxSample.sampleId).getLastD "")) := by
  induction chunks generalizing i with
  | nil => rfl
  | cons c cs ih => simp [mkPartsFrom_cons, ih]

theorem mkPartsFrom_map_fst_ne (paired : Bool) (ns k i : Nat) (hk : k ≠ ns)
    (chunks : List (List DemuxSample)) :
    (mkPartsFrom paired ns k i chunks).map Prod.fst =
      (List.range chunks.length).map (fun j => PartitionKey.ix (i + j)) := by
  induction chunks generalizing i with
  | nil => rfl
  | cons c cs ih =>
    simp only [mkPartsFrom_cons, List.map_cons, ih, if_neg hk,
      List.length_cons, List.range_succ_eq_map, List.map_map]
    refine congrArg₂ List.cons (by simp) (List.map_congr_left fun j _ => ?_)
    simp [Function.comp]
    omega

theorem mkPartsFrom_mem (paired : Bool) (ns k i : Nat)
    (chunks : List (List DemuxSample)) (p : PartitionKey × PartResult)
    (hp : p ∈ mkPartsFrom paired ns k i chunks) :
    ∃ c ∈ chunks, p.2 = buildPart paired c := by
  induction chunks generalizing i with
  | nil => cases hp
  | cons c cs ih =>
    rw [mkPartsFrom_cons] at hp
    rcases List.mem_cons.mp hp with h | h
    · exact ⟨c, List.mem_cons_self c cs, by rw [h]⟩
    · obtain ⟨c2, hc2, he⟩ := ih (i + 1) h
      exact ⟨c2, List.mem_cons_of_mem c hc2, he⟩

theorem _partition_helper_ok (demux : Demux) (k : Nat) (paired : Bool)
    (h1 : 1 ≤ k) (h2 : k ≤ demux.samples.length) :
    _partition_helper demux (some (k : Int)) paired =
      ([], .ok (mkPartsFrom paired demux.samples.length k 1
        (array_split demux.samples k))) := by
  have hgt : ¬ ((k : Int) > (demux.samples.length : Int)) := by
    simp only [not_lt]
    exact_mod_cast h2
  have hpos : ¬ ((k : Int) ≤ 0) := by
    simp only [not_le]
    exact_mod_cast h1
  simp only [_partition_helper, clampPartitions_le demux.samples.length (k : Int) hgt,
    np_array_split, hpos, if_false, Int.toNat_natCast, Nat.cast_inj]
  rfl

theorem _partition_helper_clamped (demux : Demux) (k : Int) (paired : Bool)
    (hN : 0 < demux.samples.length) (hk : (demux.samples.length : Int) < k) :
    _partition_helper demux (some k) paired =
      ([partitionWarning k demux.samples.length],
       .ok (mkPartsFrom paired demux.samples.length demux.samples.length 1
         (array_split demux.samples demux.samples.length))) := by
  have hpos : ¬ ((demux.samples.length : Int) ≤ 0) := by
    simp only [not_le]
    exact_mod_cast hN
  simp only [_partition_helper, clampPartitions_gt demux.samples.length k hk,
    np_array_split, hpos, if_false, Int.toNat_natCast]
  congr 1
  congr 1
  unfold mkPartsFrom
  refine List.map_congr_left fun ic _ => ?_
  rw [if_pos True.intro,
    if_pos (rfl : demux.samples.length = demux.samples.length)]

theorem enum1_snd_mem {α : Type _} (i : Nat) (l : List α) (p : Nat × α)
    (hp : p ∈ enum1 i l) : p.2 ∈ l := by
  induction l generalizing i with
  | nil => cases hp
  | cons a as ih =>
    simp only [enum1, List.mem_cons] at hp
    rcases hp with h | h
    · simp [h]
    · exact List.mem_cons_of_mem a (ih (i + 1) h)

/-- C4: calling the partitioner with a requested count below 1 fails on every
dataset: the count is neither defaulted nor clamped, no warning and no
partition is produced, and the invalid-partition-count error (the spec's
ConfigurationError, concretely the `ValueError` of `np.array_split`) is
surfaced to the caller immediately. -/
theorem partition_count_below_one_errors (demux : Demux) (paired : Bool)
    (k : Int) (hk : k < 1) :
    _partition_helper demux (some k) paired = ([], .error npSplitError) := by
  have h0 : (0 : Int) ≤ (demux.samples.length : Int) := Int.natCast_nonneg _
  have hgt : ¬ k > (demux.samples.length : Int) := by omega
  have hle : k ≤ 0 := by omega
  simp [_partition_helper, clampPartitions_le demux.samples.length k hgt,
    np_array_split, hle]

theorem partition_count_below_one_errors_witness :
    (0 : Int) < 1 ∧
    _partition_helper ⟨[⟨"s1", "f1", "r1"⟩], "phred-offset: 33\n"⟩ (some 0) false =
      ([], .error npSplitError) :=
  ⟨by decide,
   partition_count_below_one_errors ⟨[⟨"s1", "f1", "r1"⟩], "phred-offset: 33\n"⟩
     false 0 (by decide)⟩

/-- C3 counterexample: on a dataset with zero samples, a requested count of
1 exceeds the sample count, so the clamping warning is emitted, but the call
then fails in `np.array_split` instead of succeeding, refuting the claim as
stated for every dataset. -/
theorem partition_clamping_cex :
    _partition_helper ⟨[], "phred-offset: 33\n"⟩ (some 1) false =
      ([partitionWarning 1 0], .error npSplitError) := by
  rfl

/-- C3 (amended): for every dataset with at least one sample, requesting a
partition count above the sample count succeeds, produces exactly one
partition per sample (never an empty partition), and emits exactly the one
clamping warning, whose text names both the requested and the actual count. -/
theorem partition_clamping (demux : Demux) (paired : Bool) (k : Int)
    (hN : 0 < demux.samples.length)
    (hk : (demux.samples.length : Int) < k) :
    ∃ parts,
      _partition_helper demux (some k) paired =
        ([partitionWarning k demux.samples.length], .ok parts) ∧
      parts.length = demux.samples.length ∧
      (∀ p ∈ parts, p.2.sampleIds.length = 1) ∧
      (∃ a b c, partitionWarning k demux.samples.length =
        a ++ toString k ++ b ++ toString demux.samples.length ++ c) := by
  have hmain := _partition_helper_clamped demux k paired hN hk
  rw [array_split_self demux.samples hN] at hmain
  refine ⟨_, hmain, ?_, ?_, ?_⟩
  · simp [mkPartsFrom_length]
  · intro p hp
    obtain ⟨c, hc, he⟩ := mkPartsFrom_mem paired demux.samples.length
      demux.samples.length 1 (demux.samples.map (fun s => [s])) p hp
    obtain ⟨s, _, hs⟩ := List.mem_map.mp hc
    rw [he, ← hs]
    simp [buildPart]
  · exact ⟨"You have requested a number of partitions '",
      "' that is greater than your number of samples '",
      ".' Your data will be partitioned by sample into '" ++
        toString demux.samples.length ++ "' partitions.",
      by simp [partitionWarning, String.append_assoc]⟩

theorem partition_clamping_witness :
    0 < (2 : Nat) ∧ ((2 : Nat) : Int) < 5 ∧
    ∃ parts,
      _partition_helper ⟨[⟨"s1", "f1", "r1"⟩, ⟨"s2", "f2", "r2"⟩],
          "phred-offset: 33\n"⟩ (some 5) false =
        ([partitionWarning 5 2], .ok parts) ∧
      parts.length = 2 := by
  obtain ⟨parts, h1, h2, _, _⟩ := partition_clamping
    ⟨[⟨"s1", "f1", "r1"⟩, ⟨"s2", "f2", "r2"⟩], "phred-offset: 33\n"⟩ false 5
    (by decide) (by decide)
  exact ⟨by decide, by decide, parts, h1, h2⟩

/-- Demultiplexed dataset with three samples used to instantiate the
partitioner theorems. -/
def demuxW : Demux :=
  ⟨[⟨"s1", "s1_f.fastq.gz", "s1_r.fastq.gz"⟩,
    ⟨"s2", "s2_f.fastq.gz", "s2_r.fastq.gz"⟩,
    ⟨"s3", "s3_f.fastq.gz", "s3_r.fastq.gz"⟩], "phred-offset: 33\n"⟩

theorem list_get_congr {α : Type _} (l l2 : List α) (h : l = l2) (i : Nat)
    (hi : i < l.length) (hi2 : i < l2.length) :
    l.get ⟨i, hi⟩ = l2.get ⟨i, hi2⟩ := by
  subst h
  rfl

/-- C2: for every dataset with `N` samples and every requested count `k` with
`1 ≤ k ≤ N`, partitioning succeeds with no warning; the samples are split, in
manifest order, into `k` contiguous chunks whose sizes sum to `N` and differ
pairwise by at most one, the first `N % k` chunks holding `⌈N / k⌉` samples
and the remaining ones `⌊N / k⌋`. -/
theorem partition_balanced_split (demux : Demux) (k : Nat) (paired : Bool)
    (h1 : 1 ≤ k) (h2 : k ≤ demux.samples.length) :
    ∃ parts : List (PartitionKey × PartResult),
      _partition_helper demux (some (k : Int)) paired = ([], .ok parts) ∧
      parts.length = k ∧
      (parts.map (fun p => p.2.sampleIds)).flatten =
        demux.samples.map DemuxSample.sampleId ∧
      (parts.map (fun p => p.2.sampleIds.length)).sum = demux.samples.length ∧
      (∀ i, ∀ hi : i < parts.length,
        (parts.get ⟨i, hi⟩).2.sampleIds.length =
          if i < demux.samples.length % k
          then (demux.samples.length + k - 1) / k
          else demux.samples.length / k) ∧
      (∀ p ∈ parts, ∀ q ∈ parts,
        p.2.sampleIds.length ≤ q.2.sampleIds.length + 1) := by
  have hk : 0 < k := h1
  refine ⟨_, _partition_helper_ok demux k paired h1 h2, ?_⟩
  have hlens : (mkPartsFrom paired demux.samples.length k 1
      (array_split demux.samples k)).map (fun p => p.2.sampleIds.length) =
      splitSizes demux.samples.length k := by
    rw [mkPartsFrom_map_sizes, array_split_map_length demux.samples k hk]
  refine ⟨?_, ?_, ?_, ?_, ?_⟩
  · rw [mkPartsFrom_length, array_split_length demux.samples k hk]
  · rw [mkPartsFrom_map_sampleIds, ← List.map_flatten,
      array_split_flatten demux.samples k hk]
  · have := congrArg List.sum hlens
    rwa [splitSizes_sum demux.samples.length k hk] at this
  · intro i hi
    have hik : i < k := by
      rw [mkPartsFrom_length, array_split_length demux.samples k hk] at hi
      exact hi
    have hi2 : i < (splitSizes demux.samples.length k).length := by
      rw [splitSizes_length demux.samples.length k hk]
      exact hik
    have hib : i < ((mkPartsFrom paired demux.samples.length k 1
        (array_split demux.samples k)).map
          (fun p => p.2.sampleIds.length)).length := by
      simpa using hi
    have hmap : ((mkPartsFrom paired demux.samples.length k 1
        (array_split demux.samples k)).map
          (fun p => p.2.sampleIds.length)).get ⟨i, hib⟩ =
        ((mkPartsFrom paired demux.samples.length k 1
          (array_split demux.samples k)).get ⟨i, hi⟩).2.sampleIds.length := by
      simp only [List.get_eq_getElem, List.getElem_map]
    have hcongr := list_get_congr _ _ hlens i hib hi2
    rw [hmap] at hcongr
    rw [hcongr, List.get_eq_getElem,
      splitSizes_getElem demux.samples.length k i hk hi2]
    by_cases hcase : i < demux.samples.length % k
    · rw [if_pos hcase, if_pos hcase, ceil_div_eq_succ demux.samples.length k hk
        (Nat.lt_of_le_of_lt (Nat.zero_le i) hcase)]
    · rw [if_neg hcase, if_neg hcase]
  · have hmem : ∀ r ∈ mkPartsFrom paired demux.samples.length k 1
        (array_split demux.samples k),
        r.2.sampleIds.length = demux.samples.length / k + 1 ∨
          r.2.sampleIds.length = demux.samples.length / k := by
      intro r hr
      have hin : r.2.sampleIds.length ∈ splitSizes demux.samples.length k := by
        rw [← hlens]
        exact List.mem_map_of_mem _ hr
      rcases List.mem_append.mp hin with h | h
      · exact Or.inl (List.eq_of_mem_replicate h)
      · exact Or.inr (List.eq_of_mem_replicate h)
    intro p hp q hq
    rcases hmem p hp with h | h <;> rcases hmem q hq with h2 | h2 <;> omega

theorem partition_balanced_split_witness :
    1 ≤ 2 ∧ 2 ≤ demuxW.samples.length ∧
    ∃ parts : List (PartitionKey × PartResult),
      _partition_helper demuxW (some ((2 : Nat) : Int)) false = ([], .ok parts) ∧
      parts.length = 2 ∧
      (parts.map (fun p => p.2.sampleIds.length)).sum = demuxW.samples.length := by
  obtain ⟨parts, ha, hb, _, hd, _, _⟩ :=
    partition_balanced_split demuxW 2 false (by decide) (by decide)
  exact ⟨by decide, by decide, parts, ha, hb, hd⟩

/-- C5: on the normal path with effective count `k`, the partition dictionary
is keyed by the sample identifiers, in manifest order, when `k` equals the
sample count, and by the 1-based integers `1..k` in chunk order when `k` is
smaller; in either case the keys of one call are homogeneous. -/
theorem partition_key_scheme (demux : Demux) (k : Nat) (paired : Bool)
    (hnd : (demux.samples.map DemuxSample.sampleId).Nodup)
    (h1 : 1 ≤ k) (h2 : k ≤ demux.samples.length) :
    ∃ parts : List (PartitionKey × PartResult),
      _partition_helper demux (some (k : Int)) paired = ([], .ok parts) ∧
      (k = demux.samples.length →
        parts.map Prod.fst =
          demux.samples.map (fun s => PartitionKey.sid s.sampleId)) ∧
      (k < demux.samples.length →
        parts.map Prod.fst =
          (List.range k).map (fun j => PartitionKey.ix (j + 1))) := by
  refine ⟨_, _partition_helper_ok demux k paired h1 h2, ?_, ?_⟩
  · intro hEq
    subst hEq
    have hN : 0 < demux.samples.length := h1
    rw [array_split_self demux.samples hN, mkPartsFrom_map_fst_eq,
      List.map_map]
    refine List.map_congr_left fun s _ => ?_
    simp [Function.comp]
  · intro hLt
    have hne : k ≠ demux.samples.length := Nat.ne_of_lt hLt
    rw [mkPartsFrom_map_fst_ne paired demux.samples.length k 1 hne,
      array_split_length demux.samples k h1]
    refine List.map_congr_left fun j _ => ?_
    exact congrArg PartitionKey.ix (Nat.add_comm 1 j)

theorem partition_key_scheme_witness :
    (demuxW.samples.map DemuxSample.sampleId).Nodup ∧
    1 ≤ 2 ∧ 2 ≤ demuxW.samples.length ∧
    ∃ parts : List (PartitionKey × PartResult),
      _partition_helper demuxW (some ((2 : Nat) : Int)) false = ([], .ok parts) ∧
      parts.map Prod.fst = (List.range 2).map (fun j => PartitionKey.ix (j + 1)) := by
  obtain ⟨parts, ha, _, hc⟩ :=
    partition_key_scheme demuxW 2 false (by decide) (by decide) (by decide)
  exact ⟨by decide, by decide, by decide, parts, ha, hc (by decide)⟩

/-- Demultiplexed dataset whose metadata file records phred-offset 64. -/
def demux64 : Demux :=
  ⟨[⟨"s1", "s1_f.fastq.gz", "s1_r.fastq.gz"⟩], "phred-offset: 64\n"⟩

/-- C6 counterexample: for a source dataset whose metadata file reads
`phred-offset: 64`, the single partition produced carries the metadata
`phred-offset: 33`, so the source's fixed metadata is not copied verbatim
into the partition. -/
theorem partition_metadata_cex :
    (_partition_helper demux64 none false).2 =
      .ok [(PartitionKey.sid "s1", buildPart false demux64.samples)] ∧
    (buildPart false demux64.samples).metadata ≠ demux64.metadataYaml :=
  ⟨rfl, by decide⟩

/-- C6 (amended): every partition produced by `_partition_helper` is given a
metadata file holding the constant `yaml.dump({'phred-offset': 33})`, written
afresh for every partition; the source dataset's metadata file is never
consulted. -/
theorem partition_metadata_fixed (demux : Demux) (np : Option Int)
    (paired : Bool) (parts : List (PartitionKey × PartResult))
    (h : (_partition_helper demux np paired).2 = .ok parts) :
    ∀ p ∈ parts, p.2.metadata = _write_metadata_yaml := by
  simp only [_partition_helper] at h
  revert h
  cases hsplit : np_array_split demux.samples
      (clampPartitions demux.samples.length np).1 with
  | error e => intro h; cases h
  | ok chunks =>
      intro h
      simp only [Except.ok.injEq] at h
      subst h
      intro p hp
      obtain ⟨ic, _, rfl⟩ := List.mem_map.mp hp
      rfl

theorem partition_metadata_fixed_witness :
    (buildPart false demux64.samples).metadata = _write_metadata_yaml :=
  partition_metadata_fixed demux64 none false
    [(PartitionKey.sid "s1", buildPart false demux64.samples)] rfl
    (PartitionKey.sid "s1", buildPart false demux64.samples)
    (List.mem_singleton.mpr rfl)

theorem copyInto_ok (acc l : List (String × String))
    (h : ((acc ++ l).map Prod.fst).Nodup) :
    copyInto acc l = .ok (acc ++ l) := by
  induction l generalizing acc with
  | nil => simp [copyInto]
  | cons f fs ih =>
      have hmem : f.1 ∉ acc.map Prod.fst := by
        intro hin
        rw [List.map_append, List.nodup_append] at h
        exact h.2.2 hin (by simp)
      have hcont : ((acc.map Prod.fst).contains f.1) = false := by
        simpa using hmem
      rw [copyInto, hcont]
      simp only [Bool.false_eq_true, if_false]
      have := ih (acc ++ [f]) (by simpa [List.append_assoc] using h)
      rw [this]
      simp

/-- C1: partitioning a contig dataset into `k ∈ [1, N]` parts and collating
the produced partitions yields exactly the same multiset (hence set) of
`(sample-id, file-content)` pairs as the source dataset, whatever iteration
order the source's `sample_dict` and the partitions' directory listings
produce. -/
theorem partition_collate_roundtrip (D D2 : List (String × String)) (k : Nat)
    (hperm : D2.Perm D) (h1 : 1 ≤ k) (h2 : k ≤ D.length)
    (hnd : (D.map Prod.fst).Nodup) :
    ∃ parts : List (PartitionKey × List (String × String)),
      partition_contigs D2 (some (k : Int)) = .ok (parts, []) ∧
      ∀ ps : List (List (String × String)),
        List.Forall₂ List.Perm ps (parts.map Prod.snd) →
        ∃ out, collate_contigs ps = .ok out ∧ out.Perm D := by
  have hk : 0 < k := h1
  have hlen : D2.length = D.length := hperm.length_eq
  have hlt : ¬ ((k : Int) < 1) := by
    simp only [not_lt]
    exact_mod_cast h1
  have hgt : ¬ ((k : Int) > (D2.length : Int)) := by
    simp only [not_lt]
    rw [hlen]
    exact_mod_cast h2
  have hpos : ¬ ((k : Int) ≤ 0) := by
    simp only [not_le]
    exact_mod_cast h1
  have hval : _validate_num_partitions D2.length (some (k : Int)) =
      .ok (k, []) := by
    simp [_validate_num_partitions, hlt, hgt, Int.toNat_natCast]
  refine ⟨(enum1 1 (array_split D2 k)).map (fun ic =>
      (if k = D2.length then PartitionKey.sid ((ic.2.map Prod.fst).getLastD "")
       else PartitionKey.ix ic.1, ic.2)), ?_, ?_⟩
  · simp only [partition_contigs, hval, np_array_split, hpos, if_false,
      Int.toNat_natCast]
  · intro ps hps
    have hsnd : ((enum1 1 (array_split D2 k)).map (fun ic =>
        (if k = D2.length then
           PartitionKey.sid ((ic.2.map Prod.fst).getLastD "")
         else PartitionKey.ix ic.1, ic.2))).map Prod.snd =
        array_split D2 k := by
      rw [List.map_map]
      exact enum1_map_snd 1 (array_split D2 k)
    rw [hsnd] at hps
    have hflatchunks : (array_split D2 k).flatten = D2 :=
      array_split_flatten D2 k hk
    have hflat : ps.flatten.Perm D := by
      have h3 := List.Perm.flatten_congr hps
      rw [hflatchunks] at h3
      exact h3.trans hperm
    have hnd2 : (ps.flatten.map Prod.fst).Nodup := by
      have h4 : (ps.flatten.map Prod.fst).Perm (D.map Prod.fst) :=
        hflat.map Prod.fst
      exact (List.Perm.nodup_iff h4).mpr hnd
    refine ⟨ps.flatten, ?_, hflat⟩
    have h5 := copyInto_ok [] ps.flatten (by simpa using hnd2)
    simpa [collate_contigs] using h5

theorem partition_collate_roundtrip_witness :
    [("s2", "CCC"), ("s3", "GGG"), ("s1", "AAA")].Perm
      [("s1", "AAA"), ("s2", "CCC"), ("s3", "GGG")] ∧
    ∃ parts : List (PartitionKey × List (String × String)),
      partition_contigs [("s2", "CCC"), ("s3", "GGG"), ("s1", "AAA")]
          (some ((2 : Nat) : Int)) = .ok (parts, []) ∧
      ∃ out, collate_contigs (parts.map Prod.snd) = .ok out ∧
        out.Perm [("s1", "AAA"), ("s2", "CCC"), ("s3", "GGG")] := by
  obtain ⟨parts, hp, hc⟩ := partition_collate_roundtrip
    [("s1", "AAA"), ("s2", "CCC"), ("s3", "GGG")]
    [("s2", "CCC"), ("s3", "GGG"), ("s1", "AAA")] 2
    (by decide) (by decide) (by decide) (by decide)
  obtain ⟨out, ho, hpm⟩ := hc (parts.map Prod.snd)
    (List.forall₂_same.mpr (fun x _ => List.Perm.refl x))
  exact ⟨by decide, parts, hp, out, ho, hpm⟩

/-- Merge key of one collated file: its sample directory and file name. -/
def tripleKey (t : String × String × String) : String × String := (t.1, t.2.1)

/-- All `(sample, file name)` merge keys of one MAG dataset. -/
def magKeys (ds : MagDataset) : List (String × String) :=
  (ds.samples.map (fun sm => sm.2.map (fun f => (sm.1, f.1)))).flatten

/-- All `(sample, file name, content)` triples of one MAG dataset. -/
def magTriples (ds : MagDataset) : List (String × String × String) :=
  (ds.samples.map (fun sm => sm.2.map (fun f => (sm.1, f.1, f.2)))).flatten

theorem addMagFiles_ok (acc : List (String × String × String)) (sname : String)
    (mags : List (String × String))
    (h : (acc.map tripleKey ++ mags.map (fun f => (sname, f.1))).Nodup) :
    addMagFiles acc sname mags =
      .ok (acc ++ mags.map (fun f => (sname, f.1, f.2))) := by
  induction mags generalizing acc with
  | nil => simp [addMagFiles]
  | cons f fs ih =>
    have hkey : (sname, f.1) ∉ acc.map tripleKey := by
      rw [List.map_cons, List.nodup_append] at h
      exact fun hin => h.2.2 hin (by simp)
    have hany : (acc.any (fun t => t.1 = sname && t.2.1 = f.1)) = false := by
      rw [List.any_eq_false]
      intro t ht
      simp only [Bool.and_eq_true, decide_eq_true_eq]
      rintro ⟨ha, hb⟩
      refine hkey ?_
      have : tripleKey t = (sname, f.1) := by simp [tripleKey, ha, hb]
      rw [← this]
      exact List.mem_map_of_mem tripleKey ht
    rw [addMagFiles, hany]
    simp only [Bool.false_eq_true, if_false]
    have hstep := ih (acc ++ [(sname, f.1, f.2)])
      (by simpa [tripleKey, List.append_assoc] using h)
    rw [hstep]
    simp

theorem map_tripleKey_triples (sname : String) (mags : List (String × String)) :
    (mags.map (fun f => (sname, f.1, f.2))).map tripleKey =
      mags.map (fun f => (sname, f.1)) := by
  rw [List.map_map]
  rfl

theorem magTriples_map_tripleKey (ds : MagDataset) :
    (magTriples ds).map tripleKey = magKeys ds := by
  unfold magTriples magKeys
  rw [List.map_flatten, List.map_map]
  refine congrArg List.flatten (List.map_congr_left fun sm _ => ?_)
  have : (List.map tripleKey ∘ fun sm2 : String × List (String × String) =>
      sm2.2.map (fun f => (sm2.1, f.1, f.2))) sm =
      (sm.2.map (fun f => (sm.1, f.1, f.2))).map tripleKey := rfl
  rw [this, map_tripleKey_triples]

theorem addSamples_ok (acc : List (String × String × String))
    (samples : List (String × List (String × String)))
    (h : (acc.map tripleKey ++
        (samples.map (fun sm => sm.2.map (fun f => (sm.1, f.1)))).flatten).Nodup) :
    addSamples acc samples =
      .ok (acc ++ (samples.map (fun sm =>
        sm.2.map (fun f => (sm.1, f.1, f.2)))).flatten) := by
  induction samples generalizing acc with
  | nil => simp [addSamples]
  | cons sm sms ih =>
    obtain ⟨sname, mags⟩ := sm
    simp only [List.map_cons, List.flatten_cons] at h
    have h1 : addMagFiles acc sname mags =
        .ok (acc ++ mags.map (fun f => (sname, f.1, f.2))) := by
      refine addMagFiles_ok acc sname mags (List.Sublist.nodup ?_ h)
      rw [← List.append_assoc]
      exact List.sublist_append_left _ _
    rw [addSamples, h1]
    have h2 := ih (acc ++ mags.map (fun f => (sname, f.1, f.2)))
      (by rw [List.map_append, map_tripleKey_triples, List.append_assoc]; exact h)
    show addSamples (acc ++ mags.map (fun f => (sname, f.1, f.2))) sms = _
    rw [h2]
    simp [List.append_assoc]

theorem collateMagsGo_some (files : List (String × String × String))
    (man : List String) (warns : List String) (inputs : List MagDataset)
    (hm : ∀ ds ∈ inputs, ds.manifest ≠ [])
    (hkeys : (files.map tripleKey ++ (inputs.map magKeys).flatten).Nodup) :
    collateMagsGo ⟨files, some man, warns⟩ inputs =
      .ok ⟨files ++ (inputs.map magTriples).flatten,
           some (man ++ (inputs.map (fun ds => ds.manifest.drop 1)).flatten),
           warns⟩ := by
  induction inputs generalizing files man with
  | nil => simp [collateMagsGo]
  | cons ds rest ih =>
    simp only [List.map_cons, List.flatten_cons] at hkeys
    have h1 : addSamples files ds.samples = .ok (files ++ magTriples ds) := by
      refine addSamples_ok files ds.samples (List.Sublist.nodup ?_ hkeys)
      rw [← List.append_assoc]
      exact List.sublist_append_left _ _
    obtain ⟨mh, mt, hman⟩ : ∃ h t, ds.manifest = h :: t := by
      cases hds : ds.manifest with
      | nil => exact absurd hds (hm ds (List.mem_cons_self ds rest))
      | cons a b => exact ⟨a, b, rfl⟩
    rw [collateMagsGo, h1, hman]
    simp only [appendManifest]
    have h2 := ih (files ++ magTriples ds) (man ++ mt)
      (fun d hd => hm d (List.mem_cons_of_mem ds hd))
      (by rw [List.map_append, magTriples_map_tripleKey, List.append_assoc]
          exact hkeys)
    show collateMagsGo ⟨files ++ magTriples ds, some (man ++ mt), warns⟩ rest = _
    rw [h2]
    simp [List.append_assoc, hman]

/-- C8: collating manifest-bearing MAG datasets merges manifests by
concatenation: the first input's manifest, header included, seeds the output,
and every later input contributes exactly its lines with the first (header)
line removed, in input order. -/
theorem collate_mags_manifest (first : MagDataset) (rest : List MagDataset)
    (hm : ∀ ds ∈ rest, ds.manifest ≠ [])
    (hkeys : (((first :: rest).map magKeys).flatten).Nodup) :
    ∃ out, collate_sample_data_mags (first :: rest) = .ok out ∧
      out.manifest = some (first.manifest ++
        (rest.map (fun ds => ds.manifest.drop 1)).flatten) := by
  simp only [List.map_cons, List.flatten_cons] at hkeys
  have h1 : addSamples [] first.samples = .ok ([] ++ magTriples first) := by
    refine addSamples_ok [] first.samples (List.Sublist.nodup ?_ hkeys)
    simp only [List.map_nil, List.nil_append]
    exact List.sublist_append_left _ _
  unfold collate_sample_data_mags
  rw [collateMagsGo, h1]
  show ∃ out, collateMagsGo ⟨magTriples first, some first.manifest, []⟩ rest =
      .ok out ∧ out.manifest = some (first.manifest ++
        (rest.map (fun ds => ds.manifest.drop 1)).flatten)
  rw [collateMagsGo_some (magTriples first) first.manifest [] rest hm
    (by rw [magTriples_map_tripleKey]; exact hkeys)]
  exact ⟨_, rfl, rfl⟩

/-- C9 (amended): collating nested MAG datasets in which the same sample
directory occurs in several inputs does not abort and proceeds additively,
the output sample directory holding that sample's files from all inputs, but
it does so silently: no warning of any kind is emitted. -/
theorem collate_mags_additive_silent (inputs : List MagDataset)
    (hm : ∀ ds ∈ inputs.drop 1, ds.manifest ≠ [])
    (hkeys : ((inputs.map magKeys).flatten).Nodup) :
    ∃ out, collate_sample_data_mags inputs = .ok out ∧
      out.warnings = [] ∧
      out.files = (inputs.map magTriples).flatten := by
  cases inputs with
  | nil => exact ⟨⟨[], none, []⟩, rfl, rfl, rfl⟩
  | cons first rest =>
    simp only [List.drop_succ_cons, List.drop_zero] at hm
    simp only [List.map_cons, List.flatten_cons] at hkeys
    have h1 : addSamples [] first.samples = .ok ([] ++ magTriples first) := by
      refine addSamples_ok [] first.samples (List.Sublist.nodup ?_ hkeys)
      simp only [List.map_nil, List.nil_append]
      exact List.sublist_append_left _ _
    unfold collate_sample_data_mags
    rw [collateMagsGo, h1]
    show ∃ out, collateMagsGo ⟨magTriples first, some first.manifest, []⟩ rest =
        .ok out ∧ out.warnings = [] ∧
        out.files = ((first :: rest).map magTriples).flatten
    rw [collateMagsGo_some (magTriples first) first.manifest [] rest hm
      (by rw [magTriples_map_tripleKey]; exact hkeys)]
    exact ⟨_, rfl, rfl, by simp⟩

/-- Two MAG partitions that share the sample directory `s1`. -/
def magsCex1 : MagDataset := ⟨["sample-id,filename"], [("s1", [("m1.fa", "A")])]⟩

/-- Second partition holding another file for the same sample `s1`. -/
def magsCex2 : MagDataset := ⟨["sample-id,filename"], [("s1", [("m2.fa", "B")])]⟩

/-- C9 counterexample: when the sample directory `s1` of the second input
already exists in the output, the collation merges the directories additively
and succeeds, but its warning list is empty: no warning is logged, contrary
to the claim. -/
theorem collate_mags_silent_merge_cex :
    collate_sample_data_mags [magsCex1, magsCex2] =
      .ok ⟨[("s1", "m1.fa", "A"), ("s1", "m2.fa", "B")],
           some ["sample-id,filename"], []⟩ := by
  rfl

theorem collate_mags_manifest_witness :
    ∃ out, collate_sample_data_mags [magsCex1, magsCex2] = .ok out ∧
      out.manifest = some (magsCex1.manifest ++
        ([magsCex2].map (fun ds => ds.manifest.drop 1)).flatten) :=
  collate_mags_manifest magsCex1 [magsCex2] (by decide) (by decide)

theorem collate_mags_additive_silent_witness :
    ∃ out, collate_sample_data_mags [magsCex1, magsCex2] = .ok out ∧
      out.warnings = [] ∧
      out.files = ([magsCex1, magsCex2].map magTriples).flatten :=
  collate_mags_additive_silent [magsCex1, magsCex2] (by decide) (by decide)

/-- First identifier of the traversal that repeats an earlier one, given the
identifiers already `seen`. -/
def firstDup (seen : List String) : List String → Option String
  | [] => none
  | n :: ns => if seen.contains n then some n else firstDup (seen ++ [n]) ns

unseal List.merge List.mergeSort in
/-- C7: evaluation at the failing input.  With the default
`on_duplicates = "warn"` policy and `ref1.fasta` present in both inputs, the
collation completes and emits the warning announcing that the latest
occurrence overwrites all previous occurrences, yet the output holds the
content of the first occurrence: the later duplicate was skipped, never
written. -/
theorem collate_genomes_first_occurrence_wins :
    collate_genomes [[("ref1.fasta", "AAA")], [("ref1.fasta", "CCC")]] "warn" =
      .ok ([("ref1.fasta", "AAA")], [dupMsg ["ref1.fasta"] ++ dupWarnTail]) := by
  rfl

theorem stepFile_true_dup (st : GState) (f : String × String)
    (hc : st.ids.contains f.1 = true) :
    stepFile true st f = .error (dupMsg
      (if st.dups.contains f.1 = true then st.dups else st.dups ++ [f.1])) := by
  rw [stepFile, if_pos hc]
  rfl

theorem stepFile_false_dup (st : GState) (f : String × String)
    (hc : st.ids.contains f.1 = true) :
    stepFile false st f = .ok { st with dups :=
      (if st.dups.contains f.1 = true then st.dups else st.dups ++ [f.1]) } := by
  rw [stepFile, if_pos hc]
  rfl

theorem stepFile_fresh (err : Bool) (st : GState) (f : String × String)
    (hc : ¬ (st.ids.contains f.1 = true)) :
    stepFile err st f = .ok ⟨st.ids ++ [f.1], st.dups, st.out ++ [f]⟩ := by
  rw [stepFile, if_neg hc]

theorem processFiles_append (err : Bool) (st : GState)
    (l1 l2 : List (String × String)) :
    processFiles err st (l1 ++ l2) =
      match processFiles err st l1 with
      | .error e => .error e
      | .ok st2 => processFiles err st2 l2 := by
  induction l1 generalizing st with
  | nil => rfl
  | cons f fs ih =>
    rw [List.cons_append, processFiles]
    cases h : stepFile err st f with
    | error e =>
      rw [processFiles, h]
    | ok st2 =>
      rw [processFiles, h]
      show processFiles err st2 (fs ++ l2) =
        (match processFiles err st2 fs with
         | .error e => .error e
         | .ok st3 => processFiles err st3 l2)
      exact ih st2

theorem processGenomes_eq_flatten (err : Bool) (st : GState)
    (gs : List (List (String × String))) :
    processGenomes err st gs = processFiles err st gs.flatten := by
  induction gs generalizing st with
  | nil => rfl
  | cons g rest ih =>
    rw [List.flatten_cons, processFiles_append, processGenomes]
    cases h : processFiles err st g with
    | error e => rfl
    | ok st2 => exact ih st2

theorem processFiles_false_ok (st : GState) (l : List (String × String)) :
    ∃ st2, processFiles false st l = .ok st2 := by
  induction l generalizing st with
  | nil => exact ⟨st, rfl⟩
  | cons f fs ih =>
    by_cases hc : st.ids.contains f.1 = true
    · obtain ⟨st2, h2⟩ := ih { st with
        dups := (if st.dups.contains f.1 = true then st.dups else st.dups ++ [f.1]) }
      exact ⟨st2, by rw [processFiles, stepFile_false_dup st f hc]; exact h2⟩
    · obtain ⟨st2, h2⟩ := ih
        ⟨st.ids ++ [f.1], st.dups, st.out ++ [f]⟩
      exact ⟨st2, by rw [processFiles, stepFile_fresh false st f hc]; exact h2⟩

theorem processFiles_false_dups_mono (st st2 : GState)
    (l : List (String × String)) (h : processFiles false st l = .ok st2)
    (hne : st.dups ≠ []) : st2.dups ≠ [] := by
  induction l generalizing st with
  | nil =>
    rw [processFiles] at h
    cases h
    exact hne
  | cons f fs ih =>
    rw [processFiles] at h
    by_cases hc : st.ids.contains f.1 = true
    · rw [stepFile_false_dup st f hc] at h
      refine ih { st with
        dups := (if st.dups.contains f.1 = true then st.dups
          else st.dups ++ [f.1]) } h ?_
      by_cases hd : st.dups.contains f.1 = true
      · rw [if_pos hd]
        exact hne
      · rw [if_neg hd]
        simp
    · rw [stepFile_fresh false st f hc] at h
      exact ih ⟨st.ids ++ [f.1], st.dups, st.out ++ [f]⟩ h hne

theorem processFiles_false_dup_nonempty (st st2 : GState)
    (l : List (String × String)) (h : processFiles false st l = .ok st2)
    (hids : st.ids.Nodup) (hnd : ¬ ((st.ids ++ l.map Prod.fst).Nodup)) :
    st2.dups ≠ [] := by
  induction l generalizing st with
  | nil =>
    exact absurd (by simpa using hids) hnd
  | cons f fs ih =>
    rw [processFiles] at h
    by_cases hc : st.ids.contains f.1 = true
    · rw [stepFile_false_dup st f hc] at h
      refine processFiles_false_dups_mono _ st2 fs h ?_
      by_cases hd : st.dups.contains f.1 = true
      · rw [if_pos hd]
        intro hnil
        rw [hnil] at hd
        simp at hd
      · rw [if_neg hd]
        simp
    · rw [stepFile_fresh false st f hc] at h
      have hn : f.1 ∉ st.ids := by simpa using hc
      refine ih ⟨st.ids ++ [f.1], st.dups, st.out ++ [f]⟩ h ?_ ?_
      · rw [List.nodup_append]
        refine ⟨hids, List.nodup_singleton f.1, ?_⟩
        intro a ha hb
        rw [List.mem_singleton] at hb
        exact hn (hb ▸ ha)
      · rw [List.append_assoc]
        simpa using hnd

theorem processFiles_true_error (ids : List String)
    (outl : List (String × String)) (l : List (String × String)) (d : String)
    (hd : firstDup ids (l.map Prod.fst) = some d) :
    processFiles true ⟨ids, [], outl⟩ l = .error (dupMsg [d]) := by
  induction l generalizing ids outl with
  | nil => cases hd
  | cons f fs ih =>
    rw [List.map_cons, firstDup] at hd
    by_cases hc : ids.contains f.1 = true
    · rw [if_pos hc, Option.some.injEq] at hd
      subst hd
      rw [processFiles, stepFile_true_dup ⟨ids, [], outl⟩ f hc]
      rfl
    · rw [if_neg hc] at hd
      rw [processFiles, stepFile_fresh true ⟨ids, [], outl⟩ f hc]
      exact ih (ids ++ [f.1]) (outl ++ [f]) hd

theorem firstDup_isSome (seen names : List String)
    (hseen : seen.Nodup) (h : ¬ ((seen ++ names).Nodup)) :
    ∃ d, firstDup seen names = some d := by
  induction names generalizing seen with
  | nil => exact absurd (by simpa using hseen) h
  | cons n ns ih =>
    by_cases hc : seen.contains n = true
    · exact ⟨n, by rw [firstDup, if_pos hc]⟩
    · have hn : n ∉ seen := by simpa using hc
      have hseen2 : (seen ++ [n]).Nodup := by
        rw [List.nodup_append]
        refine ⟨hseen, List.nodup_singleton n, ?_⟩
        intro a ha hb
        rw [List.mem_singleton] at hb
        exact hn (hb ▸ ha)
      have h2 : ¬ (((seen ++ [n]) ++ ns).Nodup) := by
        rw [List.append_assoc]
        simpa using h
      obtain ⟨d, hdd⟩ := ih (seen ++ [n]) hseen2 h2
      exact ⟨d, by rw [firstDup, if_neg hc]; exact hdd⟩

/-- C10: `collate_genomes` raises only when `on_duplicates` is exactly the
string `"error"`: under any other string, a run whose inputs repeat an
identifier completes with the duplicate warning; under `"error"` it raises
the `ValueError` immediately at the first repeated identifier, naming exactly
the duplicate identifiers seen so far (that first one). -/
theorem collate_genomes_duplicate_policy
    (genomes : List (List (String × String))) (s : String)
    (hdup : ¬ ((genomes.flatten.map Prod.fst).Nodup)) :
    (s ≠ "error" →
      ∃ files warns, collate_genomes genomes s = .ok (files, warns) ∧
        warns ≠ []) ∧
    (s = "error" →
      ∃ d, firstDup [] (genomes.flatten.map Prod.fst) = some d ∧
        collate_genomes genomes s = .error (dupMsg [d])) := by
  constructor
  · intro hs
    have hbeq : (s == "error") = false := by
      simpa using hs
    obtain ⟨st2, hst⟩ := processFiles_false_ok ⟨[], [], []⟩ genomes.flatten
    have hdups : st2.dups ≠ [] :=
      processFiles_false_dup_nonempty ⟨[], [], []⟩ st2 genomes.flatten hst
        List.nodup_nil (by simpa using hdup)
    obtain ⟨d, ds, hds⟩ := List.exists_cons_of_ne_nil hdups
    refine ⟨st2.out,
      [dupMsg ((d :: ds).mergeSort (fun a b => decide (a ≤ b))) ++ dupWarnTail],
      ?_, by simp⟩
    unfold collate_genomes
    rw [hbeq, processGenomes_eq_flatten, hst]
    show Except.ok (st2.out, if st2.dups.isEmpty = true then []
      else [dupMsg (st2.dups.mergeSort (fun a b => decide (a ≤ b))) ++
        dupWarnTail]) = _
    rw [hds]
    rfl
  · intro hs
    subst hs
    have hbeq : (("error" : String) == "error") = true := by simp
    obtain ⟨d, hdd⟩ := firstDup_isSome [] (genomes.flatten.map Prod.fst)
      List.nodup_nil (by simpa using hdup)
    have herr := processFiles_true_error [] [] genomes.flatten d hdd
    refine ⟨d, hdd, ?_⟩
    unfold collate_genomes
    rw [hbeq, processGenomes_eq_flatten, herr]

theorem collate_genomes_duplicate_policy_witness :
    ¬ (((([[("a", "x")], [("a", "y")]] :
        List (List (String × String)))).flatten.map Prod.fst).Nodup) ∧
    ∃ d, firstDup [] ((([[("a", "x")], [("a", "y")]] :
        List (List (String × String)))).flatten.map Prod.fst) = some d ∧
      collate_genomes [[("a", "x")], [("a", "y")]] "error" =
        .error (dupMsg [d]) := by
  have h := collate_genomes_duplicate_policy [[("a", "x")], [("a", "y")]]
    "error" (by decide)
  exact ⟨by decide, h.2 rfl⟩

end Q2Types
